import Mathlib

/-!
Verification of the Hamiltonian-path finder (`main.py`).

The Python program is shallowly embedded:
* a Python `set[int]` is modelled as its sorted duplicate-free `List Int`
  (the canonical iteration order of a set of small non-negative integers);
* the mutable search state of `_backtrack` (`path`, `visited`, and the graph
  reference) is threaded explicitly, so that the in-place undo on backtrack
  and the absence of graph mutation are provable properties of the embedding;
* the recursion of `_backtrack` is indexed by a `fuel` bound on the call
  depth; the outer `none` marks exhaustion of that bound and is shown
  unreachable on the states the program actually builds.
-/

namespace HamPath

/-- Insert an integer into a sorted duplicate-free list keeping it sorted and
duplicate-free: the model of the `add` method of a Python `set[int]`. -/
def setInsert (v : Int) : List Int → List Int
  | [] => [v]
  | x :: xs => if v < x then v :: x :: xs else if v = x then x :: xs else x :: setInsert v xs

/-- Canonical set of the elements of a list: `set(path)` in Python. -/
def canonSet (l : List Int) : List Int := l.foldr setInsert []

/-- Model of `class Graph` from `main.py`: `n` vertices, a directedness flag
and one adjacency set per vertex. -/
structure Graph where
  n : Nat
  directed : Bool
  adj : List (List Int)
deriving DecidableEq

/-- Model of `Graph.__init__(n, directed)`: `n` empty adjacency sets. -/
def Graph.construct (n : Nat) (directed : Bool) : Graph :=
  ⟨n, directed, List.replicate n []⟩

/-- The adjacency set `self.adj[u]` (the source only ever reads it at indices
`0 ≤ u < n`, where the `[]` default of `getD` is never used). -/
def Graph.adjAt (g : Graph) (u : Int) : List Int :=
  g.adj.getD u.toNat []

/-- Model of `Graph.add_edge` from `main.py`: ignore self-loops, validate both
endpoints, insert `v` into `adj[u]`, and for an undirected graph also insert
`u` into `adj[v]`. -/
def Graph.add_edge (g : Graph) (u v : Int) : Graph :=
  if u = v then g
  else if ¬(0 ≤ u ∧ u < (g.n : Int) ∧ 0 ≤ v ∧ v < (g.n : Int)) then g
  else
    let g1 : Graph := ⟨g.n, g.directed, g.adj.set u.toNat (setInsert v (g.adjAt u))⟩
    if g.directed then g1
    else ⟨g1.n, g1.directed, g1.adj.set v.toNat (setInsert u (g1.adjAt v))⟩

/-- Model of `len(self.adj[x])`: the key of the degree-ordering heuristic. -/
def Graph.degree (g : Graph) (x : Int) : Nat := (g.adjAt x).length

/-- Model of `Graph.neighbors` from `main.py`:
`sorted(self.adj[u], key=lambda x: len(self.adj[x]))` — a stable sort of the
adjacency set by neighbor degree (the Python `sorted` is stable; stability over
the canonical ascending iteration order breaks degree ties by smaller
identifier first), and `[]` when `u` is out of range. -/
def Graph.neighbors (g : Graph) (u : Int) : List Int :=
  if 0 ≤ u ∧ u < (g.n : Int) then
    List.insertionSort (fun a b => g.degree a ≤ g.degree b) (g.adjAt u)
  else []

/-- Model of `is_hamiltonian_path` from `main.py`.  In the source the directed and the
undirected branch of the edge check perform the identical test
`v not in g.neighbors(u)`, so the embedding has the single check. -/
def is_hamiltonian_path (g : Graph) (path : List Int) : Bool :=
  if path.length ≠ g.n then false
  else if canonSet path ≠ canonSet ((List.range g.n).map (fun i : Nat => (i : Int))) then false
  else (List.range (path.length - 1)).all
    (fun i => decide (path.getD (i + 1) 0 ∈ g.neighbors (path.getD i 0)))

/-- The mutable state of one top-level search attempt: the graph reference and
the working `path` and `visited` containers of `_backtrack`.  The graph is
part of the state so that its preservation by the search is a provable
property rather than a by-product of a pure embedding. -/
structure SState where
  graph : Graph
  path : List Int
  visited : List Bool
deriving DecidableEq

/-- The loop `for neighbor in g.neighbors(current): ...` of `_backtrack`,
with `bk` the recursive call one stack level deeper.  The outer `none` models
a Python fault (call-depth exhaustion, or an out-of-range `visited` index);
`some (res, s)` means the call returns `res` with `s` the state after all
in-place mutations.  On failure of the recursive call the tentative move is
undone exactly as in the source: `path.pop()` and `visited[neighbor] = False`. -/
def neighborLoop (bk : Int → SState → Option (Option (List Int) × SState)) :
    List Int → SState → Option (Option (List Int) × SState)
  | [], s => some (none, s)
  | v :: rest, s =>
    if hv : v.toNat < s.visited.length then
      if s.visited.get ⟨v.toNat, hv⟩ then neighborLoop bk rest s
      else
        match bk v ⟨s.graph, s.path ++ [v], s.visited.set v.toNat true⟩ with
        | none => none
        | some (some p, s2) => some (some p, s2)
        | some (none, s2) =>
          neighborLoop bk rest ⟨s2.graph, s2.path.dropLast, s2.visited.set v.toNat false⟩
    else none

/-- Model of `_backtrack` from `main.py`.  Here `fuel` bounds the depth of the Python call
stack; the termination theorem shows the bound `g.n` used by the program is
never hit on reachable states. -/
def backtrackAux : Nat → Int → SState → Option (Option (List Int) × SState)
  | 0, _, _ => none
  | fuel + 1, current, s =>
    if s.path.length = s.graph.n then some (some s.path, s)
    else neighborLoop (backtrackAux fuel) (s.graph.neighbors current) s

/-- One iteration of the start-vertex loop of `find_hamiltonian_path`: fresh
`visited` and `path` marking `start`, then the recursive search, with fuel
`g.n` (enough by the termination theorem). -/
def startSearch (g : Graph) (start : Nat) : Option (List Int) × SState :=
  let s0 : SState := ⟨g, [(start : Int)], (List.replicate g.n false).set start true⟩
  match backtrackAux g.n (start : Int) s0 with
  | some r => r
  | none => (none, s0)

/-- The loop `for start in range(n)` of `find_hamiltonian_path`: first
successful start wins, `none` when every start fails. -/
def tryFrom (g : Graph) : List Nat → Option (List Int)
  | [] => none
  | start :: rest =>
    match (startSearch g start).1 with
    | some p => some p
    | none => tryFrom g rest

/-- Model of `find_hamiltonian_path` from `main.py`. -/
def find_hamiltonian_path (g : Graph) : Option (List Int) :=
  if g.n = 0 then some []
  else if g.n = 1 then some [(0 : Int)]
  else tryFrom g (List.range g.n)

/-- Well-formedness of a graph value: what `construct` followed by `add_edge`
calls always produces and the search relies on — one adjacency set per vertex
and every stored identifier in range. -/
def Graph.WF (g : Graph) : Prop :=
  g.adj.length = g.n ∧ ∀ s ∈ g.adj, ∀ x ∈ s, 0 ≤ x ∧ x < (g.n : Int)

instance (g : Graph) : Decidable g.WF := by
  unfold Graph.WF; infer_instance

/-! ### Toolbox: canonical sets -/

theorem mem_setInsert (v x : Int) (l : List Int) :
    x ∈ setInsert v l ↔ x = v ∨ x ∈ l := by
  induction l with
  | nil => simp [setInsert]
  | cons y ys ih =>
    simp only [setInsert]
    split_ifs with h1 h2
    · simp only [List.mem_cons]
    · subst h2; simp only [List.mem_cons]; tauto
    · simp only [List.mem_cons, ih]; tauto

theorem sorted_setInsert (v : Int) (l : List Int) (h : l.Sorted (· < ·)) :
    (setInsert v l).Sorted (· < ·) := by
  induction l with
  | nil => simp [setInsert]
  | cons y ys ih =>
    rw [List.sorted_cons] at h
    simp only [setInsert]
    split_ifs with h1 h2
    · rw [List.sorted_cons]
      refine ⟨?_, ?_⟩
      · intro b hb
        rcases List.mem_cons.mp hb with rfl | hb
        · exact h1
        · exact lt_trans h1 (h.1 b hb)
      · rw [List.sorted_cons]; exact h
    · rw [List.sorted_cons]; exact h
    · rw [List.sorted_cons]
      refine ⟨?_, ih h.2⟩
      intro b hb
      rcases (mem_setInsert v b ys).mp hb with rfl | hb
      · exact lt_of_le_of_ne (not_lt.mp h1) (fun hyx => h2 hyx.symm)
      · exact h.1 b hb

theorem setInsert_idem (v : Int) (l : List Int) :
    setInsert v (setInsert v l) = setInsert v l := by
  induction l with
  | nil => simp [setInsert]
  | cons y ys ih =>
    simp only [setInsert]
    split_ifs with h1 h2
    · simp [setInsert, lt_irrefl]
    · simp [setInsert, h1, h2]
    · simp only [setInsert, if_neg h1, if_neg h2, ih]

theorem canonSet_cons (x : Int) (l : List Int) :
    canonSet (x :: l) = setInsert x (canonSet l) := rfl

theorem sorted_canonSet (l : List Int) : (canonSet l).Sorted (· < ·) := by
  induction l with
  | nil => simp [canonSet]
  | cons x xs ih => exact sorted_setInsert x _ ih

theorem mem_canonSet (x : Int) (l : List Int) : x ∈ canonSet l ↔ x ∈ l := by
  induction l with
  | nil => simp [canonSet]
  | cons y ys ih =>
    rw [canonSet_cons, mem_setInsert, List.mem_cons, ih]

theorem canonSet_eq_canonSet {l1 l2 : List Int} :
    canonSet l1 = canonSet l2 ↔ ∀ x, x ∈ l1 ↔ x ∈ l2 := by
  constructor
  · intro h x
    rw [← mem_canonSet x l1, ← mem_canonSet x l2, h]
  · intro h
    haveI : IsAntisymm Int (· < ·) := ⟨fun a b h1 h2 => absurd h2 (asymm h1)⟩
    apply List.eq_of_perm_of_sorted ?_ (sorted_canonSet l1) (sorted_canonSet l2)
    rw [List.perm_ext_iff_of_nodup (sorted_canonSet l1).nodup (sorted_canonSet l2).nodup]
    intro x
    rw [mem_canonSet, mem_canonSet]
    exact h x

/-! ### Toolbox: graph access -/

theorem getD_mem_of_lt {l : List Int} {i : Nat} (h : i < l.length) : l.getD i 0 ∈ l := by
  rw [List.getD_eq_getElem?_getD, List.getElem?_eq_getElem h, Option.getD_some]
  exact List.getElem_mem h

theorem Graph.WF.mem_adjAt_range {g : Graph} (hwf : g.WF) {u x : Int}
    (hx : x ∈ g.adjAt u) : 0 ≤ x ∧ x < (g.n : Int) := by
  unfold Graph.adjAt at hx
  by_cases h : u.toNat < g.adj.length
  · rw [List.getD_eq_getElem?_getD, List.getElem?_eq_getElem h, Option.getD_some] at hx
    exact hwf.2 _ (List.getElem_mem h) x hx
  · rw [List.getD_eq_getElem?_getD, List.getElem?_eq_none (not_lt.mp h)] at hx
    simp at hx

theorem Graph.mem_neighbors {g : Graph} {u : Int} (h0 : 0 ≤ u) (h1 : u < (g.n : Int))
    (x : Int) : x ∈ g.neighbors u ↔ x ∈ g.adjAt u := by
  unfold Graph.neighbors
  rw [if_pos ⟨h0, h1⟩]
  exact List.mem_insertionSort _

theorem Graph.neighbors_sub {g : Graph} {u x : Int} (hx : x ∈ g.neighbors u) :
    x ∈ g.adjAt u := by
  unfold Graph.neighbors at hx
  split_ifs at hx with h
  · exact (List.mem_insertionSort _).mp hx
  · simp at hx

theorem Graph.neighbors_range {g : Graph} {u x : Int} (hx : x ∈ g.neighbors u) :
    0 ≤ u ∧ u < (g.n : Int) := by
  unfold Graph.neighbors at hx
  split_ifs at hx with h
  · exact h
  · simp at hx

theorem mem_rangeList {n : Nat} {x : Int} :
    x ∈ (List.range n).map (fun i : Nat => (i : Int)) ↔ 0 ≤ x ∧ x < (n : Int) := by
  rw [List.mem_map]
  constructor
  · rintro ⟨i, hi, rfl⟩
    rw [List.mem_range] at hi
    exact ⟨Int.natCast_nonneg i, by exact_mod_cast hi⟩
  · rintro ⟨h0, h1⟩
    refine ⟨x.toNat, ?_, ?_⟩
    · rw [List.mem_range]; omega
    · simp [Int.toNat_of_nonneg h0]

/-! ### The validator, characterised -/

/-- Modelled from the spec: the three conditions of §4.4 — right length, the
set of identifiers in `path` equal to `{0, …, vertex_count-1}` exactly, and
every consecutive pair an edge of the graph (membership in the adjacency set
of the first endpoint, hence direction-sensitive for directed graphs). -/
def HamSpec (g : Graph) (path : List Int) : Prop :=
  path.length = g.n ∧ (∀ x : Int, x ∈ path ↔ 0 ≤ x ∧ x < (g.n : Int)) ∧
    ∀ i : Nat, i + 1 < path.length → path.getD (i + 1) 0 ∈ g.adjAt (path.getD i 0)

instance (g : Graph) (path : List Int) : Decidable (HamSpec g path) := by
  apply decidable_of_iff
    (path.length = g.n ∧
      ((∀ x ∈ path, 0 ≤ x ∧ x < (g.n : Int)) ∧ ∀ i ∈ List.range g.n, (i : Int) ∈ path) ∧
      ∀ i ∈ List.range path.length, i + 1 < path.length →
        path.getD (i + 1) 0 ∈ g.adjAt (path.getD i 0))
  unfold HamSpec
  constructor
  · rintro ⟨ha, ⟨hb1, hb2⟩, hc⟩
    refine ⟨ha, ?_, ?_⟩
    · intro x
      refine ⟨hb1 x, fun hx => ?_⟩
      have h := hb2 x.toNat (by rw [List.mem_range]; omega)
      rwa [Int.toNat_of_nonneg hx.1] at h
    · intro i hi
      exact hc i (by rw [List.mem_range]; omega) hi
  · rintro ⟨ha, hb, hc⟩
    refine ⟨ha, ⟨fun x hx => (hb x).mp hx, fun i hi => (hb (i : Int)).mpr ?_⟩,
      fun i _ hi => hc i hi⟩
    rw [List.mem_range] at hi
    constructor <;> omega

theorem ham_iff (g : Graph) (p : List Int) :
    is_hamiltonian_path g p = true ↔ HamSpec g p := by
  unfold is_hamiltonian_path HamSpec
  split_ifs with hlen hset
  · simp only [Bool.false_eq_true, false_iff]
    rintro ⟨h1, -, -⟩
    exact hlen h1
  · simp only [Bool.false_eq_true, false_iff]
    rintro ⟨-, h2, -⟩
    apply hset
    rw [canonSet_eq_canonSet]
    intro x
    rw [mem_rangeList]
    exact h2 x
  · rw [not_not] at hlen hset
    rw [canonSet_eq_canonSet] at hset
    rw [List.all_eq_true]
    constructor
    · intro hall
      refine ⟨hlen, ?_, ?_⟩
      · intro x
        rw [← mem_rangeList (n := g.n)]
        exact hset x
      · intro i hi
        have hmem : i ∈ List.range (p.length - 1) := by rw [List.mem_range]; omega
        have h := hall _ hmem
        rw [decide_eq_true_iff] at h
        exact Graph.neighbors_sub h
    · rintro ⟨-, hmemiff, hedge⟩
      intro i hi
      rw [List.mem_range] at hi
      rw [decide_eq_true_iff]
      have hu := (hmemiff _).mp (getD_mem_of_lt (l := p) (i := i) (by omega))
      rw [Graph.mem_neighbors hu.1 hu.2]
      exact hedge i (by omega)

/-! ### Toolbox: the search state -/

theorem set_false_self {l : List Bool} {i : Nat} (h : i < l.length)
    (hf : l.get ⟨i, h⟩ = false) : l.set i false = l := by
  apply List.ext_getElem (by simp)
  intro j hj1 hj2
  rw [List.getElem_set]
  split_ifs with hij
  · subst hij
    exact hf.symm
  · rfl

/-- Undoing the tentative move (`path.pop()`; `visited[v] = False`) restores
the state from before the move. -/
theorem restore_state {s : SState} {v : Int} (hv : v.toNat < s.visited.length)
    (hvis : s.visited.get ⟨v.toNat, hv⟩ = false) :
    (⟨s.graph, (s.path ++ [v]).dropLast,
      (s.visited.set v.toNat true).set v.toNat false⟩ : SState) = s := by
  have h1 : (s.path ++ [v]).dropLast = s.path := by simp
  have h2 : (s.visited.set v.toNat true).set v.toNat false = s.visited := by
    rw [List.set_set]
    exact set_false_self hv hvis
  rw [h1, h2]

theorem count_false_set_true {l : List Bool} {i : Nat} (h : i < l.length)
    (hf : l.get ⟨i, h⟩ = false) : (l.set i true).count false + 1 = l.count false := by
  induction l generalizing i with
  | nil => simp at h
  | cons b bs ih =>
    cases i with
    | zero =>
      have hb : b = false := hf
      subst hb
      simp [List.count_cons]
    | succ j =>
      have hj : j < bs.length := by simpa using h
      have hf2 : bs.get ⟨j, hj⟩ = false := hf
      simp only [List.set_cons_succ, List.count_cons, ← ih hj hf2]
      split_ifs <;> omega

/-! ### Backtrack atomicity: a failed call restores the entry state -/

theorem neighborLoop_none_eq {bk : Int → SState → Option (Option (List Int) × SState)}
    (hbk : ∀ c s out, bk c s = some (none, out) → out = s) :
    ∀ ns s out, neighborLoop bk ns s = some (none, out) → out = s := by
  intro ns
  induction ns with
  | nil =>
    intro s out h
    simp only [neighborLoop, Option.some.injEq, Prod.mk.injEq] at h
    exact h.2.symm
  | cons v rest ih =>
    intro s out h
    simp only [neighborLoop] at h
    split_ifs at h with hv hvis
    · exact ih s out h
    · push_neg at hvis
      cases hbkv : bk v ⟨s.graph, s.path ++ [v], s.visited.set v.toNat true⟩ with
      | none => rw [hbkv] at h; simp at h
      | some r =>
        obtain ⟨res, s2⟩ := r
        rw [hbkv] at h
        cases res with
        | some p => simp at h
        | none =>
          have hs2 := hbk _ _ _ hbkv
          rw [hs2] at h
          simp only at h
          rw [restore_state hv (by simpa using hvis)] at h
          exact ih _ _ h

theorem backtrackAux_none_eq :
    ∀ fuel c s out, backtrackAux fuel c s = some (none, out) → out = s := by
  intro fuel
  induction fuel with
  | zero =>
    intro c s out h
    simp [backtrackAux] at h
  | succ f ih =>
    intro c s out h
    simp only [backtrackAux] at h
    split_ifs at h with hbase
    · simp at h
    · exact neighborLoop_none_eq (fun c s out => ih c s out) _ _ _ h

/-! ### The search never mutates the graph -/

theorem neighborLoop_graph_eq {bk : Int → SState → Option (Option (List Int) × SState)}
    (hbk : ∀ c s r, bk c s = some r → r.2.graph = s.graph) :
    ∀ ns s r, neighborLoop bk ns s = some r → r.2.graph = s.graph := by
  intro ns
  induction ns with
  | nil =>
    intro s r h
    simp only [neighborLoop, Option.some.injEq] at h
    rw [← h]
  | cons v rest ih =>
    intro s r h
    simp only [neighborLoop] at h
    split_ifs at h with hv hvis
    · exact ih s r h
    · cases hbkv : bk v ⟨s.graph, s.path ++ [v], s.visited.set v.toNat true⟩ with
      | none => rw [hbkv] at h; simp at h
      | some r2 =>
        obtain ⟨res, s2⟩ := r2
        rw [hbkv] at h
        have hg2 : s2.graph = s.graph := hbk _ _ _ hbkv
        cases res with
        | some p =>
          simp only [Option.some.injEq] at h
          rw [← h]
          exact hg2
        | none =>
          have := ih _ _ h
          rw [this]
          exact hg2

theorem backtrackAux_graph_eq :
    ∀ fuel c s r, backtrackAux fuel c s = some r → r.2.graph = s.graph := by
  intro fuel
  induction fuel with
  | zero =>
    intro c s r h
    simp [backtrackAux] at h
  | succ f ih =>
    intro c s r h
    simp only [backtrackAux] at h
    split_ifs at h with hbase
    · simp only [Option.some.injEq] at h
      rw [← h]
    · exact neighborLoop_graph_eq (fun c s r => ih c s r) _ _ _ h

/-! ### Termination: the fuel bound `g.n` is never hit -/

theorem neighborLoop_total {f : Nat}
    (hbkT : ∀ c s, s.graph.WF → s.visited.length = s.graph.n →
      s.visited.count false < f → (backtrackAux f c s).isSome) :
    ∀ ns s, s.graph.WF → s.visited.length = s.graph.n →
      s.visited.count false ≤ f →
      (∀ v ∈ ns, 0 ≤ v ∧ v < (s.graph.n : Int)) →
      (neighborLoop (backtrackAux f) ns s).isSome := by
  intro ns
  induction ns with
  | nil =>
    intro s _ _ _ _
    simp [neighborLoop]
  | cons v rest ih =>
    intro s hwf hlen hcount hns
    have hvr := hns v (List.mem_cons_self v rest)
    have hv : v.toNat < s.visited.length := by omega
    simp only [neighborLoop]
    rw [dif_pos hv]
    by_cases hvis : s.visited.get ⟨v.toNat, hv⟩ = true
    · rw [if_pos hvis]
      exact ih s hwf hlen hcount (fun w hw => hns w (List.mem_cons_of_mem v hw))
    · rw [if_neg hvis]
      rw [Bool.not_eq_true] at hvis
      have hcount1 := count_false_set_true hv hvis
      set s1 : SState := ⟨s.graph, s.path ++ [v], s.visited.set v.toNat true⟩ with hs1
      have hT := hbkT v s1 hwf (by simp [hs1, hlen]) (by simp only [hs1]; omega)
      cases hbkv : backtrackAux f v s1 with
      | none => rw [hbkv] at hT; simp at hT
      | some r =>
        obtain ⟨res, s2⟩ := r
        cases res with
        | some p => simp
        | none =>
          have hs2 : s2 = s1 := backtrackAux_none_eq f v s1 s2 hbkv
          rw [hs2]
          simp only [hs1]
          rw [restore_state hv hvis]
          exact ih s hwf hlen hcount (fun w hw => hns w (List.mem_cons_of_mem v hw))

theorem backtrackAux_total :
    ∀ fuel c s, s.graph.WF → s.visited.length = s.graph.n →
      s.visited.count false < fuel → (backtrackAux fuel c s).isSome := by
  intro fuel
  induction fuel with
  | zero =>
    intro c s _ _ h
    omega
  | succ f ih =>
    intro c s hwf hlen hcount
    simp only [backtrackAux]
    split_ifs with hbase
    · simp
    · apply neighborLoop_total ih _ s hwf hlen (by omega)
      intro v hv
      exact hwf.mem_adjAt_range (Graph.neighbors_sub hv)

/-! ### The search invariant and soundness -/

theorem getD_eq_get {l : List Int} {i : Nat} (h : i < l.length) :
    l.getD i 0 = l.get ⟨i, h⟩ := by
  rw [List.getD_eq_getElem?_getD, List.getElem?_eq_getElem h, Option.getD_some]
  rfl

/-- The invariant that `_backtrack` maintains: a well-formed graph, a marker
array of the right size agreeing with the path, a duplicate-free in-range
path that is a chain of edges and ends at the current vertex. -/
structure SInv (current : Int) (s : SState) : Prop where
  wf : s.graph.WF
  vlen : s.visited.length = s.graph.n
  nodup : s.path.Nodup
  inRange : ∀ x ∈ s.path, 0 ≤ x ∧ x < (s.graph.n : Int)
  marker : ∀ i : Nat, ∀ h : i < s.visited.length,
    (s.visited.get ⟨i, h⟩ = true ↔ (i : Int) ∈ s.path)
  chain : s.path.Chain' (fun a b => b ∈ s.graph.adjAt a)
  lastEq : s.path.getLast? = some current

theorem SInv.step {c : Int} {s : SState} (inv : SInv c s) {v : Int}
    (hvnb : v ∈ s.graph.neighbors c) (hv : v.toNat < s.visited.length)
    (hvis : s.visited.get ⟨v.toNat, hv⟩ = false) :
    SInv v ⟨s.graph, s.path ++ [v], s.visited.set v.toNat true⟩ := by
  have hvadj : v ∈ s.graph.adjAt c := Graph.neighbors_sub hvnb
  have hvrange : 0 ≤ v ∧ v < (s.graph.n : Int) := inv.wf.mem_adjAt_range hvadj
  have hvnot : v ∉ s.path := by
    intro hmem
    have h1 : (v.toNat : Int) ∈ s.path := by
      rwa [Int.toNat_of_nonneg hvrange.1]
    have h2 := (inv.marker v.toNat hv).mpr h1
    rw [hvis] at h2
    exact Bool.false_ne_true h2
  constructor
  · exact inv.wf
  · simp [inv.vlen]
  · rw [List.nodup_append]
    exact ⟨inv.nodup, List.nodup_singleton v, by
      intro a ha hav
      rw [List.mem_singleton] at hav
      subst hav
      exact hvnot ha⟩
  · intro x hx
    rcases List.mem_append.mp hx with hx | hx
    · exact inv.inRange x hx
    · rw [List.mem_singleton] at hx
      subst hx
      exact hvrange
  · intro i h
    have hi : i < s.visited.length := by simpa using h
    by_cases hieq : i = v.toNat
    · subst hieq
      have hget : (s.visited.set v.toNat true).get ⟨v.toNat, h⟩ = true := by
        simp [List.get_eq_getElem, List.getElem_set_self]
      rw [hget]
      simp only [List.mem_append, List.mem_singleton, true_iff]
      right
      omega
    · have hget : (s.visited.set v.toNat true).get ⟨i, h⟩ = s.visited.get ⟨i, hi⟩ := by
        simp [List.get_eq_getElem, List.getElem_set_ne (fun hh => hieq hh.symm)]
      rw [hget, List.mem_append, List.mem_singleton]
      rw [inv.marker i hi]
      constructor
      · exact fun hm => Or.inl hm
      · rintro (hm | hm)
        · exact hm
        · exact absurd (by omega : i = v.toNat) hieq
  · rw [List.chain'_append]
    refine ⟨inv.chain, List.chain'_singleton v, ?_⟩
    intro x hx y hy
    rw [inv.lastEq, Option.mem_def, Option.some.injEq] at hx
    simp only [List.head?_cons, Option.mem_def, Option.some.injEq] at hy
    subst hx
    subst hy
    exact hvadj
  · simp

theorem SInv.complete {c : Int} {s : SState} (inv : SInv c s)
    (hlen : s.path.length = s.graph.n) :
    is_hamiltonian_path s.graph s.path = true := by
  rw [ham_iff]
  refine ⟨hlen, ?_, ?_⟩
  · intro x
    refine ⟨fun hx => inv.inRange x hx, fun hx => ?_⟩
    have hsub : s.path.toFinset ⊆
        (Finset.range s.graph.n).image (fun i : Nat => (i : Int)) := by
      intro y hy
      rw [List.mem_toFinset] at hy
      have hr := inv.inRange y hy
      rw [Finset.mem_image]
      exact ⟨y.toNat, by rw [Finset.mem_range]; omega, by omega⟩
    have hcard1 : s.path.toFinset.card = s.graph.n := by
      rw [List.toFinset_card_of_nodup inv.nodup, hlen]
    have hcard2 :
        ((Finset.range s.graph.n).image (fun i : Nat => (i : Int))).card = s.graph.n := by
      rw [Finset.card_image_of_injective _ (fun a b h => by omega), Finset.card_range]
    have heq : s.path.toFinset = (Finset.range s.graph.n).image (fun i : Nat => (i : Int)) :=
      Finset.eq_of_subset_of_card_le hsub (by omega)
    have hx2 : x ∈ s.path.toFinset := by
      rw [heq, Finset.mem_image]
      exact ⟨x.toNat, by rw [Finset.mem_range]; omega, by omega⟩
    rwa [List.mem_toFinset] at hx2
  · intro i hi
    have hch := List.chain'_iff_get.mp inv.chain i (by omega)
    rw [getD_eq_get (l := s.path) (i := i) (by omega),
      getD_eq_get (l := s.path) (i := i + 1) (by omega)]
    exact hch

theorem neighborLoop_sound {bk : Int → SState → Option (Option (List Int) × SState)}
    (hbkA : ∀ c s out, bk c s = some (none, out) → out = s)
    (hbkS : ∀ c s p s2, SInv c s → bk c s = some (some p, s2) →
      is_hamiltonian_path s.graph p = true) :
    ∀ ns c s p s2, SInv c s → (∀ v ∈ ns, v ∈ s.graph.neighbors c) →
      neighborLoop bk ns s = some (some p, s2) →
      is_hamiltonian_path s.graph p = true := by
  intro ns
  induction ns with
  | nil =>
    intro c s p s2 _ _ h
    simp [neighborLoop] at h
  | cons v rest ih =>
    intro c s p s2 inv hns h
    simp only [neighborLoop] at h
    split_ifs at h with hv hvis
    · exact ih c s p s2 inv (fun w hw => hns w (List.mem_cons_of_mem v hw)) h
    · rw [Bool.not_eq_true] at hvis
      cases hbkv : bk v ⟨s.graph, s.path ++ [v], s.visited.set v.toNat true⟩ with
      | none => rw [hbkv] at h; simp at h
      | some r =>
        obtain ⟨res, s3⟩ := r
        rw [hbkv] at h
        cases res with
        | some q =>
          simp only [Option.some.injEq, Prod.mk.injEq] at h
          obtain ⟨hq, -⟩ := h
          subst hq
          exact hbkS v ⟨s.graph, s.path ++ [v], s.visited.set v.toNat true⟩ q s3
            (inv.step (hns v (List.mem_cons_self v rest)) hv hvis) hbkv
        | none =>
          have hs3 := hbkA _ _ _ hbkv
          rw [hs3] at h
          simp only at h
          rw [restore_state hv hvis] at h
          exact ih c s p s2 inv (fun w hw => hns w (List.mem_cons_of_mem v hw)) h

theorem backtrackAux_sound :
    ∀ fuel c s p s2, SInv c s → backtrackAux fuel c s = some (some p, s2) →
      is_hamiltonian_path s.graph p = true := by
  intro fuel
  induction fuel with
  | zero =>
    intro c s p s2 _ h
    simp [backtrackAux] at h
  | succ f ih =>
    intro c s p s2 inv h
    simp only [backtrackAux] at h
    split_ifs at h with hbase
    · simp only [Option.some.injEq, Prod.mk.injEq] at h
      obtain ⟨hq, -⟩ := h
      subst hq
      exact inv.complete hbase
    · exact neighborLoop_sound (backtrackAux_none_eq f)
        (fun c s p s2 inv hb => ih c s p s2 inv hb) _ c s p s2 inv (fun v hv => hv) h

/-! ### The returned path extends the entry path -/

theorem neighborLoop_extends {bk : Int → SState → Option (Option (List Int) × SState)}
    (hbkA : ∀ c s out, bk c s = some (none, out) → out = s)
    (hbkE : ∀ c s p s2, bk c s = some (some p, s2) → ∃ t, p = s.path ++ t) :
    ∀ ns s p s2, neighborLoop bk ns s = some (some p, s2) → ∃ t, p = s.path ++ t := by
  intro ns
  induction ns with
  | nil =>
    intro s p s2 h
    simp [neighborLoop] at h
  | cons v rest ih =>
    intro s p s2 h
    simp only [neighborLoop] at h
    split_ifs at h with hv hvis
    · exact ih s p s2 h
    · rw [Bool.not_eq_true] at hvis
      cases hbkv : bk v ⟨s.graph, s.path ++ [v], s.visited.set v.toNat true⟩ with
      | none => rw [hbkv] at h; simp at h
      | some r =>
        obtain ⟨res, s3⟩ := r
        rw [hbkv] at h
        cases res with
        | some q =>
          simp only [Option.some.injEq, Prod.mk.injEq] at h
          obtain ⟨hq, -⟩ := h
          subst hq
          obtain ⟨t, ht⟩ := hbkE _ _ _ _ hbkv
          exact ⟨[v] ++ t, by rw [ht, List.append_assoc]⟩
        | none =>
          have hs3 := hbkA _ _ _ hbkv
          rw [hs3] at h
          simp only at h
          rw [restore_state hv hvis] at h
          exact ih s p s2 h

theorem backtrackAux_extends :
    ∀ fuel c s p s2, backtrackAux fuel c s = some (some p, s2) →
      ∃ t, p = s.path ++ t := by
  intro fuel
  induction fuel with
  | zero =>
    intro c s p s2 h
    simp [backtrackAux] at h
  | succ f ih =>
    intro c s p s2 h
    simp only [backtrackAux] at h
    split_ifs at h with hbase
    · simp only [Option.some.injEq, Prod.mk.injEq] at h
      obtain ⟨hq, -⟩ := h
      subst hq
      exact ⟨[], (List.append_nil _).symm⟩
    · exact neighborLoop_extends (backtrackAux_none_eq f)
        (fun c s p s2 hb => ih c s p s2 hb) _ s p s2 h

/-! ### Completeness: a reachable full path is always found -/

/-- The partial path can be extended to a full Hamiltonian path. -/
def Extendable (g : Graph) (path : List Int) : Prop :=
  ∃ ext : List Int, (path ++ ext).length = g.n ∧ (path ++ ext).Nodup ∧
    (∀ x ∈ path ++ ext, 0 ≤ x ∧ x < (g.n : Int)) ∧
    (path ++ ext).Chain' (fun a b => b ∈ g.adjAt a)

theorem neighborLoop_complete {f : Nat}
    (hbkC : ∀ c s, SInv c s → Extendable s.graph s.path →
      s.visited.count false < f → ∃ p s2, backtrackAux f c s = some (some p, s2)) :
    ∀ ns c s, SInv c s → (∀ v ∈ ns, v ∈ s.graph.neighbors c) →
      s.visited.count false ≤ f →
      (∃ w ∈ ns, (∃ hw : w.toNat < s.visited.length,
          s.visited.get ⟨w.toNat, hw⟩ = false) ∧ Extendable s.graph (s.path ++ [w])) →
      ∃ p s2, neighborLoop (backtrackAux f) ns s = some (some p, s2) := by
  intro ns
  induction ns with
  | nil =>
    intro c s _ _ _ hwit
    obtain ⟨w, hw, -⟩ := hwit
    simp at hw
  | cons v rest ih =>
    intro c s inv hns hcount hwit
    have hvnb := hns v (List.mem_cons_self v rest)
    have hvr := inv.wf.mem_adjAt_range (Graph.neighbors_sub hvnb)
    have hv : v.toNat < s.visited.length := by
      have := inv.vlen; omega
    simp only [neighborLoop]
    rw [dif_pos hv]
    by_cases hvis : s.visited.get ⟨v.toNat, hv⟩ = true
    · rw [if_pos hvis]
      obtain ⟨w, hwmem, ⟨hw, hwfalse⟩, hwext⟩ := hwit
      have hwne : w ≠ v := by
        intro hwv
        subst hwv
        rw [hwfalse] at hvis
        exact Bool.false_ne_true hvis
      rcases List.mem_cons.mp hwmem with hwv | hwrest
      · exact absurd hwv hwne
      · exact ih c s inv (fun x hx => hns x (List.mem_cons_of_mem v hx)) hcount
          ⟨w, hwrest, ⟨hw, hwfalse⟩, hwext⟩
    · rw [if_neg hvis]
      rw [Bool.not_eq_true] at hvis
      have hcount1 := count_false_set_true hv hvis
      have hinv1 := inv.step hvnb hv hvis
      have hT := backtrackAux_total f v ⟨s.graph, s.path ++ [v], s.visited.set v.toNat true⟩
        inv.wf (by simp [inv.vlen]) (by simp only; omega)
      cases hbkv : backtrackAux f v ⟨s.graph, s.path ++ [v], s.visited.set v.toNat true⟩ with
      | none => rw [hbkv] at hT; simp at hT
      | some r =>
        obtain ⟨res, s3⟩ := r
        cases res with
        | some p => exact ⟨p, s3, rfl⟩
        | none =>
          have hs3 := backtrackAux_none_eq f v _ s3 hbkv
          dsimp only
          rw [hs3]
          dsimp only
          rw [restore_state hv hvis]
          obtain ⟨w, hwmem, ⟨hw, hwfalse⟩, hwext⟩ := hwit
          have hwne : w ≠ v := by
            intro hwv
            subst hwv
            obtain ⟨p, s4, hp⟩ := hbkC w ⟨s.graph, s.path ++ [w], s.visited.set w.toNat true⟩
              hinv1 hwext (by dsimp only; omega)
            rw [hp] at hbkv
            simp at hbkv
          rcases List.mem_cons.mp hwmem with hwv | hwrest
          · exact absurd hwv hwne
          · exact ih c s inv (fun x hx => hns x (List.mem_cons_of_mem v hx)) hcount
              ⟨w, hwrest, ⟨hw, hwfalse⟩, hwext⟩

theorem backtrackAux_complete :
    ∀ fuel c s, SInv c s → Extendable s.graph s.path →
      s.visited.count false < fuel →
      ∃ p s2, backtrackAux fuel c s = some (some p, s2) := by
  intro fuel
  induction fuel with
  | zero =>
    intro c s _ _ h
    omega
  | succ f ih =>
    intro c s inv hext hcount
    by_cases hbase : s.path.length = s.graph.n
    · exact ⟨s.path, s, by simp [backtrackAux, hbase]⟩
    · obtain ⟨ext, hlen, hnd, hrange, hchain⟩ := hext
      cases ext with
      | nil =>
        rw [List.append_nil] at hlen
        exact absurd hlen hbase
      | cons w ext2 =>
        have hcpath : c ∈ s.path := List.mem_of_getLast?_eq_some inv.lastEq
        have hcrange := inv.inRange c hcpath
        have hwadj : w ∈ s.graph.adjAt c := by
          have hb := (List.chain'_append.mp hchain).2.2
          apply hb c ?_ w ?_
          · rw [inv.lastEq]; rfl
          · rfl
        have hwrange := hrange w (by simp)
        have hwnb : w ∈ s.graph.neighbors c :=
          (Graph.mem_neighbors hcrange.1 hcrange.2 w).mpr hwadj
        have hw : w.toNat < s.visited.length := by
          have := inv.vlen; omega
        have hwnotpath : w ∉ s.path := by
          rw [List.nodup_append] at hnd
          intro hmem
          exact hnd.2.2 hmem (List.mem_cons_self w ext2)
        have hwvis : s.visited.get ⟨w.toNat, hw⟩ = false := by
          by_contra hcon
          rw [Bool.not_eq_false] at hcon
          have hm := (inv.marker w.toNat hw).mp hcon
          rw [Int.toNat_of_nonneg hwrange.1] at hm
          exact hwnotpath hm
        have hwext : Extendable s.graph (s.path ++ [w]) := by
          refine ⟨ext2, ?_, ?_, ?_, ?_⟩ <;> rw [List.append_assoc] <;>
            first
              | exact hlen
              | exact hnd
              | exact hrange
              | exact hchain
        simp only [backtrackAux]
        rw [if_neg hbase]
        exact neighborLoop_complete (fun c s inv he hc => ih c s inv he hc) _ c s inv
          (fun v hv => hv) (by omega) ⟨w, hwnb, ⟨hw, hwvis⟩, hwext⟩

/-! ### The per-start search -/

theorem SInv_init {g : Graph} (hwf : g.WF) {start : Nat} (hs : start < g.n) :
    SInv (start : Int) ⟨g, [(start : Int)], (List.replicate g.n false).set start true⟩ := by
  constructor
  · exact hwf
  · simp
  · exact List.nodup_singleton _
  · intro x hx
    rw [List.mem_singleton] at hx
    subst hx
    dsimp only
    constructor <;> omega
  · intro i h
    have hlen : i < g.n := by simpa using h
    by_cases hieq : i = start
    · subst hieq
      have hget : ((List.replicate g.n false).set i true).get ⟨i, h⟩ = true := by
        simp [List.get_eq_getElem, List.getElem_set_self]
      rw [hget]
      simp
    · have hget : ((List.replicate g.n false).set start true).get ⟨i, h⟩ = false := by
        simp [List.get_eq_getElem, List.getElem_set_ne (fun hh => hieq hh.symm),
          List.getElem_replicate]
      rw [hget]
      simp only [Bool.false_eq_true, false_iff, List.mem_singleton]
      intro hcon
      exact hieq (by omega)
  · exact List.chain'_singleton _
  · simp

theorem count_false_init {n start : Nat} (hs : start < n) :
    ((List.replicate n false).set start true).count false + 1 = n := by
  have h : start < (List.replicate n false).length := by simpa using hs
  have hf : (List.replicate n false).get ⟨start, h⟩ = false := by
    simp [List.get_eq_getElem, List.getElem_replicate]
  rw [count_false_set_true h hf]
  simp

theorem startSearch_sound {g : Graph} (hwf : g.WF) {start : Nat} (hs : start < g.n)
    {p : List Int} (h : (startSearch g start).1 = some p) :
    is_hamiltonian_path g p = true := by
  simp only [startSearch] at h
  cases hbk : backtrackAux g.n (start : Int)
      ⟨g, [(start : Int)], (List.replicate g.n false).set start true⟩ with
  | none => rw [hbk] at h; simp at h
  | some r =>
    obtain ⟨res, s2⟩ := r
    rw [hbk] at h
    dsimp only at h
    cases res with
    | none => simp at h
    | some q =>
      rw [Option.some.injEq] at h
      subst h
      exact backtrackAux_sound g.n (start : Int) _ q s2 (SInv_init hwf hs) hbk

theorem startSearch_head {g : Graph} {start : Nat} {p : List Int}
    (h : (startSearch g start).1 = some p) : ∃ t, p = (start : Int) :: t := by
  simp only [startSearch] at h
  cases hbk : backtrackAux g.n (start : Int)
      ⟨g, [(start : Int)], (List.replicate g.n false).set start true⟩ with
  | none => rw [hbk] at h; simp at h
  | some r =>
    obtain ⟨res, s2⟩ := r
    rw [hbk] at h
    dsimp only at h
    cases res with
    | none => simp at h
    | some q =>
      rw [Option.some.injEq] at h
      subst h
      obtain ⟨t, ht⟩ := backtrackAux_extends g.n (start : Int) _ q s2 hbk
      exact ⟨t, ht⟩

theorem startSearch_complete {g : Graph} (hwf : g.WF) {start : Nat} (hs : start < g.n)
    {q : List Int} (hq : is_hamiltonian_path g q = true)
    (hhead : q.head? = some (start : Int)) :
    ∃ p, (startSearch g start).1 = some p := by
  obtain ⟨q0, tail, rfl⟩ : ∃ q0 tail, q = q0 :: tail := by
    cases q with
    | nil => simp at hhead
    | cons a t => exact ⟨a, t, rfl⟩
  rw [List.head?_cons, Option.some.injEq] at hhead
  subst hhead
  rw [ham_iff] at hq
  obtain ⟨hlen, hmem, hedge⟩ := hq
  have hfin : ((start : Int) :: tail).toFinset =
      (Finset.range g.n).image (fun i : Nat => (i : Int)) := by
    ext y
    rw [List.mem_toFinset, Finset.mem_image, hmem y]
    constructor
    · rintro ⟨h0, h1⟩
      exact ⟨y.toNat, by rw [Finset.mem_range]; omega, by omega⟩
    · rintro ⟨i, hi, rfl⟩
      rw [Finset.mem_range] at hi
      constructor <;> omega
  have hcard : ((start : Int) :: tail).toFinset.card = ((start : Int) :: tail).length := by
    rw [hfin, Finset.card_image_of_injective _ (fun a b h => by omega),
      Finset.card_range, hlen]
  have hnodup : ((start : Int) :: tail).Nodup := by
    rw [← List.dedup_eq_self]
    apply List.Sublist.eq_of_length (List.dedup_sublist _)
    rw [← List.card_toFinset]
    exact hcard
  have hchain : ((start : Int) :: tail).Chain' (fun a b => b ∈ g.adjAt a) := by
    rw [List.chain'_iff_get]
    intro i hi
    have h := hedge i (by omega)
    rwa [getD_eq_get (by omega), getD_eq_get (by omega)] at h
  have hext : Extendable g [(start : Int)] :=
    ⟨tail, hlen, hnodup, fun x hx => (hmem x).mp hx, hchain⟩
  obtain ⟨p, s2, hp⟩ := backtrackAux_complete g.n (start : Int)
    ⟨g, [(start : Int)], (List.replicate g.n false).set start true⟩
    (SInv_init hwf hs) hext
    (by dsimp only; have := count_false_init (n := g.n) hs; omega)
  refine ⟨p, ?_⟩
  simp only [startSearch]
  rw [hp]

/-! ### The start-vertex loop -/

theorem tryFrom_none_all {g : Graph} : ∀ l, tryFrom g l = none →
    ∀ s ∈ l, (startSearch g s).1 = none := by
  intro l
  induction l with
  | nil =>
    intro _ s hs
    simp at hs
  | cons a rest ih =>
    intro h s hs
    simp only [tryFrom] at h
    cases hsa : (startSearch g a).1 with
    | some p => rw [hsa] at h; simp at h
    | none =>
      rw [hsa] at h
      dsimp only at h
      rcases List.mem_cons.mp hs with rfl | hs2
      · exact hsa
      · exact ih h s hs2

theorem tryFrom_some_split {g : Graph} : ∀ l p, tryFrom g l = some p →
    ∃ l1 st l2, l = l1 ++ st :: l2 ∧ (∀ x ∈ l1, (startSearch g x).1 = none) ∧
      (startSearch g st).1 = some p := by
  intro l
  induction l with
  | nil =>
    intro p h
    simp [tryFrom] at h
  | cons a rest ih =>
    intro p h
    simp only [tryFrom] at h
    cases hsa : (startSearch g a).1 with
    | some q =>
      rw [hsa] at h
      dsimp only at h
      rw [Option.some.injEq] at h
      subst h
      exact ⟨[], a, rest, rfl, by simp, hsa⟩
    | none =>
      rw [hsa] at h
      dsimp only at h
      obtain ⟨l1, st, l2, heq, hall, hst⟩ := ih p h
      refine ⟨a :: l1, st, l2, by rw [heq]; rfl, ?_, hst⟩
      intro x hx
      rcases List.mem_cons.mp hx with rfl | hx2
      · exact hsa
      · exact hall x hx2

/-! ### Top-level soundness and completeness -/

theorem find_sound {g : Graph} {p : List Int} (hwf : g.WF)
    (h : find_hamiltonian_path g = some p) : is_hamiltonian_path g p = true := by
  unfold find_hamiltonian_path at h
  split_ifs at h with h0 h1
  · rw [Option.some.injEq] at h
    subst h
    rw [ham_iff]
    refine ⟨by simp [h0], ?_, ?_⟩
    · intro x
      rw [h0]
      simp only [List.not_mem_nil, false_iff]
      omega
    · intro i hi
      simp at hi
  · rw [Option.some.injEq] at h
    subst h
    rw [ham_iff]
    refine ⟨by simp [h1], ?_, ?_⟩
    · intro x
      rw [h1]
      simp only [List.mem_singleton]
      omega
    · intro i hi
      simp at hi
  · obtain ⟨l1, st, l2, heq, hall, hst⟩ := tryFrom_some_split _ p h
    have hstlt : st < g.n := by
      have hmem : st ∈ List.range g.n := by rw [heq]; simp
      rwa [List.mem_range] at hmem
    exact startSearch_sound hwf hstlt hst

theorem find_complete {g : Graph} {q : List Int} (hwf : g.WF)
    (hq : is_hamiltonian_path g q = true) : find_hamiltonian_path g ≠ none := by
  unfold find_hamiltonian_path
  split_ifs with h0 h1
  · simp
  · simp
  · intro hnone
    have hspec := (ham_iff g q).mp hq
    obtain ⟨hlen, hmem, -⟩ := hspec
    obtain ⟨a, tail, rfl⟩ : ∃ a tail, q = a :: tail := by
      cases q with
      | nil => rw [List.length_nil] at hlen; omega
      | cons a t => exact ⟨a, t, rfl⟩
    have ha := (hmem a).mp (List.mem_cons_self a tail)
    have hsn : a.toNat < g.n := by omega
    have hhead : (a :: tail).head? = some ((a.toNat : Nat) : Int) := by
      rw [List.head?_cons, Option.some.injEq]
      omega
    obtain ⟨p, hp⟩ := startSearch_complete hwf hsn hq hhead
    have hnone2 := tryFrom_none_all _ hnone a.toNat (by rw [List.mem_range]; exact hsn)
    rw [hnone2] at hp
    exact Option.noConfusion hp

/-! ### Edge insertion: rejection, idempotence, invariants -/

theorem adj_getD_set_self {l : List (List Int)} {i : Nat} {a : List Int}
    (h : i < l.length) : (l.set i a).getD i [] = a := by
  rw [List.getD_eq_getElem?_getD, List.getElem?_set_self h, Option.getD_some]

theorem adj_getD_set_ne {l : List (List Int)} {i j : Nat} {a : List Int} (h : i ≠ j) :
    (l.set i a).getD j [] = l.getD j [] := by
  rw [List.getD_eq_getElem?_getD, List.getElem?_set_ne h, ← List.getD_eq_getElem?_getD]

theorem add_edge_noop {g : Graph} {u v : Int}
    (h : u = v ∨ ¬(0 ≤ u ∧ u < (g.n : Int) ∧ 0 ≤ v ∧ v < (g.n : Int))) :
    g.add_edge u v = g := by
  unfold Graph.add_edge
  rcases h with h | h
  · rw [if_pos h]
  · by_cases huv : u = v
    · rw [if_pos huv]
    · rw [if_neg huv, if_pos h]

theorem add_edge_eq_directed {g : Graph} (hd : g.directed = true) {u v : Int}
    (huv : u ≠ v) (hr : 0 ≤ u ∧ u < (g.n : Int) ∧ 0 ≤ v ∧ v < (g.n : Int)) :
    g.add_edge u v = ⟨g.n, g.directed, g.adj.set u.toNat (setInsert v (g.adjAt u))⟩ := by
  simp only [Graph.add_edge]
  rw [if_neg huv, if_neg (not_not_intro hr), if_pos hd]

theorem add_edge_eq_undirected {g : Graph} (hd : g.directed = false) {u v : Int}
    (huv : u ≠ v) (hr : 0 ≤ u ∧ u < (g.n : Int) ∧ 0 ≤ v ∧ v < (g.n : Int))
    (hne : v.toNat ≠ u.toNat) :
    g.add_edge u v = ⟨g.n, g.directed,
      (g.adj.set u.toNat (setInsert v (g.adjAt u))).set v.toNat
        (setInsert u (g.adjAt v))⟩ := by
  simp only [Graph.add_edge]
  rw [if_neg huv, if_neg (not_not_intro hr), if_neg (by simp [hd])]
  simp only [Graph.adjAt]
  rw [adj_getD_set_ne (fun hh => hne hh.symm)]

theorem add_edge_idem {g : Graph} (hlen : g.adj.length = g.n) (u v : Int) :
    (g.add_edge u v).add_edge u v = g.add_edge u v := by
  by_cases huv : u = v
  · rw [add_edge_noop (Or.inl huv), add_edge_noop (Or.inl huv)]
  · by_cases hr : 0 ≤ u ∧ u < (g.n : Int) ∧ 0 ≤ v ∧ v < (g.n : Int)
    · have hut : u.toNat < g.adj.length := by omega
      have hvt : v.toNat < g.adj.length := by omega
      have hne : v.toNat ≠ u.toNat := by omega
      cases hd : g.directed with
      | true =>
        rw [add_edge_eq_directed hd huv hr]
        rw [add_edge_eq_directed
          (g := ⟨g.n, g.directed, g.adj.set u.toNat (setInsert v (g.adjAt u))⟩) hd huv hr]
        dsimp only
        simp only [Graph.adjAt]
        rw [adj_getD_set_self hut, setInsert_idem, List.set_set]
      | false =>
        rw [add_edge_eq_undirected hd huv hr hne]
        rw [add_edge_eq_undirected
          (g := ⟨g.n, g.directed,
            (g.adj.set u.toNat (setInsert v (g.adjAt u))).set v.toNat
              (setInsert u (g.adjAt v))⟩) hd huv hr hne]
        dsimp only
        simp only [Graph.adjAt]
        rw [adj_getD_set_ne hne, adj_getD_set_self hut,
          adj_getD_set_self (by rw [List.length_set]; exact hvt),
          setInsert_idem, setInsert_idem,
          List.set_comm _ _ _ hne, List.set_set, List.set_set]
    · rw [add_edge_noop (Or.inr hr), add_edge_noop (Or.inr hr)]

/-! ### The adjacency invariants of built graphs -/

/-- A graph built by `Graph(n, directed)` followed by the given `add_edge`
calls, in order. -/
def buildGraph (n : Nat) (directed : Bool) (es : List (Int × Int)) : Graph :=
  es.foldl (fun h e => h.add_edge e.1 e.2) (Graph.construct n directed)

/-- The adjacency invariants of §3 of the spec: one set per vertex, stored
identifiers in range, no self-loops, and symmetry for undirected graphs. -/
structure Graph.Invariant (g : Graph) : Prop where
  len : g.adj.length = g.n
  inRange : ∀ s ∈ g.adj, ∀ x ∈ s, 0 ≤ x ∧ x < (g.n : Int)
  noSelf : ∀ u : Int, 0 ≤ u → u ∉ g.adjAt u
  sym : g.directed = false → ∀ u v : Int, 0 ≤ u → 0 ≤ v →
    v ∈ g.adjAt u → u ∈ g.adjAt v

theorem Graph.Invariant.wf {g : Graph} (inv : g.Invariant) : g.WF :=
  ⟨inv.len, inv.inRange⟩

theorem adjAt_mem {g : Graph} {u : Int} (h : u.toNat < g.adj.length) :
    g.adjAt u ∈ g.adj := by
  unfold Graph.adjAt
  rw [List.getD_eq_getElem?_getD, List.getElem?_eq_getElem h, Option.getD_some]
  exact List.getElem_mem h

theorem add_edge_n_eq (g : Graph) (u v : Int) : (g.add_edge u v).n = g.n := by
  unfold Graph.add_edge
  split_ifs <;> rfl

theorem add_edge_directed_eq (g : Graph) (u v : Int) :
    (g.add_edge u v).directed = g.directed := by
  unfold Graph.add_edge
  split_ifs <;> rfl

theorem adjAt_out_of_range {g : Graph} (hlen : g.adj.length = g.n) {w : Int}
    (hw : (g.n : Int) ≤ w) : g.adjAt w = [] := by
  unfold Graph.adjAt
  rw [List.getD_eq_getElem?_getD, List.getElem?_eq_none (by omega)]
  rfl

theorem adjAt_add_edge_directed {g : Graph} (hd : g.directed = true) {u v : Int}
    (huv : u ≠ v) (hr : 0 ≤ u ∧ u < (g.n : Int) ∧ 0 ≤ v ∧ v < (g.n : Int))
    (hlen : g.adj.length = g.n) (w : Int) (hw : 0 ≤ w) :
    (g.add_edge u v).adjAt w =
      if w = u then setInsert v (g.adjAt u) else g.adjAt w := by
  rw [add_edge_eq_directed hd huv hr]
  by_cases hwu : w = u
  · subst hwu
    rw [if_pos rfl]
    show (g.adj.set w.toNat (setInsert v (g.adjAt w))).getD w.toNat [] = _
    rw [adj_getD_set_self (by omega)]
  · rw [if_neg hwu]
    show (g.adj.set u.toNat (setInsert v (g.adjAt u))).getD w.toNat [] = _
    rw [adj_getD_set_ne (fun hh => hwu (by omega))]
    rfl

theorem adjAt_add_edge_undirected {g : Graph} (hd : g.directed = false) {u v : Int}
    (huv : u ≠ v) (hr : 0 ≤ u ∧ u < (g.n : Int) ∧ 0 ≤ v ∧ v < (g.n : Int))
    (hlen : g.adj.length = g.n) (w : Int) (hw : 0 ≤ w) :
    (g.add_edge u v).adjAt w =
      if w = u then setInsert v (g.adjAt u)
      else if w = v then setInsert u (g.adjAt v)
      else g.adjAt w := by
  have hne : v.toNat ≠ u.toNat := by omega
  rw [add_edge_eq_undirected hd huv hr hne]
  simp only [Graph.adjAt]
  by_cases hwv : w = v
  · subst hwv
    rw [if_neg (fun hh => huv hh.symm), if_pos rfl,
      adj_getD_set_self (by rw [List.length_set]; omega)]
  · by_cases hwu : w = u
    · subst hwu
      rw [if_pos rfl, adj_getD_set_ne (fun hh => hwv (by omega)),
        adj_getD_set_self (by omega)]
    · rw [if_neg hwu, if_neg hwv,
        adj_getD_set_ne (fun hh => hwv (by omega)),
        adj_getD_set_ne (fun hh => hwu (by omega))]

theorem add_edge_invariant {g : Graph} (inv : g.Invariant) (u v : Int) :
    (g.add_edge u v).Invariant := by
  by_cases huv : u = v
  · rw [add_edge_noop (Or.inl huv)]
    exact inv
  by_cases hr : 0 ≤ u ∧ u < (g.n : Int) ∧ 0 ≤ v ∧ v < (g.n : Int)
  case neg => rw [add_edge_noop (Or.inr hr)]; exact inv
  have hut : u.toNat < g.adj.length := by have := inv.len; omega
  have hvt : v.toNat < g.adj.length := by have := inv.len; omega
  have hXr : ∀ x ∈ setInsert v (g.adjAt u), 0 ≤ x ∧ x < (g.n : Int) := by
    intro x hx
    rcases (mem_setInsert v x _).mp hx with rfl | hx
    · exact ⟨hr.2.2.1, hr.2.2.2⟩
    · exact inv.inRange _ (adjAt_mem hut) x hx
  have hYr : ∀ x ∈ setInsert u (g.adjAt v), 0 ≤ x ∧ x < (g.n : Int) := by
    intro x hx
    rcases (mem_setInsert u x _).mp hx with rfl | hx
    · exact ⟨hr.1, hr.2.1⟩
    · exact inv.inRange _ (adjAt_mem hvt) x hx
  cases hd : g.directed with
  | true =>
    have hA := adjAt_add_edge_directed hd huv hr inv.len
    rw [add_edge_eq_directed hd huv hr]
    rw [add_edge_eq_directed hd huv hr] at hA
    constructor
    · simp [inv.len]
    · intro s hs x hx
      dsimp only at hs ⊢
      rcases List.mem_or_eq_of_mem_set hs with hs | rfl
      · exact inv.inRange s hs x hx
      · exact hXr x hx
    · intro w hw
      rw [hA w hw]
      split_ifs with hwu
      · subst hwu
        intro hmem
        rcases (mem_setInsert v w _).mp hmem with rfl | hmem
        · exact huv rfl
        · exact inv.noSelf w hw hmem
      · exact inv.noSelf w hw
    · intro hcon
      dsimp only at hcon
      rw [hd] at hcon
      exact absurd hcon (by decide)
  | false =>
    have hne : v.toNat ≠ u.toNat := by omega
    have hA := adjAt_add_edge_undirected hd huv hr inv.len
    rw [add_edge_eq_undirected hd huv hr hne]
    rw [add_edge_eq_undirected hd huv hr hne] at hA
    constructor
    · simp [inv.len]
    · intro s hs x hx
      dsimp only at hs ⊢
      rcases List.mem_or_eq_of_mem_set hs with hs | rfl
      · rcases List.mem_or_eq_of_mem_set hs with hs | rfl
        · exact inv.inRange s hs x hx
        · exact hXr x hx
      · exact hYr x hx
    · intro w hw
      rw [hA w hw]
      split_ifs with hwu hwv
      · subst hwu
        intro hmem
        rcases (mem_setInsert v w _).mp hmem with rfl | hmem
        · exact huv rfl
        · exact inv.noSelf w hw hmem
      · subst hwv
        intro hmem
        rcases (mem_setInsert u w _).mp hmem with rfl | hmem
        · exact huv rfl
        · exact inv.noSelf w hw hmem
      · exact inv.noSelf w hw
    · intro hdd a b ha hb hmem
      rw [hA a ha] at hmem
      rw [hA b hb]
      have hsub : ∀ w : Int, 0 ≤ w → ∀ x ∈ g.adjAt w,
          x ∈ (if w = u then setInsert v (g.adjAt u)
            else if w = v then setInsert u (g.adjAt v) else g.adjAt w) := by
        intro w hw x hx
        split_ifs with h1 h2
        · subst h1
          exact (mem_setInsert v x _).mpr (Or.inr hx)
        · subst h2
          exact (mem_setInsert u x _).mpr (Or.inr hx)
        · exact hx
      split_ifs at hmem with hau hav
      · rcases (mem_setInsert v b _).mp hmem with hbv | hmem
        · rw [if_neg (by omega), if_pos hbv]
          exact (mem_setInsert u a _).mpr (Or.inl hau)
        · exact hsub b hb a (inv.sym hd a b ha hb (by rw [hau]; exact hmem))
      · rcases (mem_setInsert u b _).mp hmem with hbu | hmem
        · rw [if_pos hbu]
          exact (mem_setInsert v a _).mpr (Or.inl hav)
        · exact hsub b hb a (inv.sym hd a b ha hb (by rw [hav]; exact hmem))
      · exact hsub b hb a (inv.sym hd a b ha hb hmem)

theorem construct_adjAt (n : Nat) (d : Bool) (u : Int) :
    (Graph.construct n d).adjAt u = [] := by
  unfold Graph.construct Graph.adjAt
  dsimp only
  by_cases h : u.toNat < n
  · rw [List.getD_eq_getElem?_getD, List.getElem?_eq_getElem (by simpa using h)]
    simp
  · rw [List.getD_eq_getElem?_getD, List.getElem?_eq_none (by simpa using h)]
    rfl

theorem construct_invariant (n : Nat) (d : Bool) : (Graph.construct n d).Invariant := by
  constructor
  · simp [Graph.construct]
  · intro s hs x hx
    have hs2 : s = [] := List.eq_of_mem_replicate hs
    subst hs2
    exact absurd hx (List.not_mem_nil x)
  · intro u _
    rw [construct_adjAt]
    exact List.not_mem_nil u
  · intro _ u v _ _ hv
    rw [construct_adjAt] at hv
    exact absurd hv (List.not_mem_nil v)

theorem buildGraph_invariant (n : Nat) (d : Bool) (es : List (Int × Int)) :
    (buildGraph n d es).Invariant := by
  suffices h : ∀ (l : List (Int × Int)) (g : Graph), g.Invariant →
      (l.foldl (fun h e => h.add_edge e.1 e.2) g).Invariant by
    exact h es _ (construct_invariant n d)
  intro l
  induction l with
  | nil =>
    intro g hg
    exact hg
  | cons e rest ih =>
    intro g hg
    exact ih _ (add_edge_invariant hg e.1 e.2)

theorem foldl_add_edge_n (l : List (Int × Int)) : ∀ g : Graph,
    (l.foldl (fun h e => h.add_edge e.1 e.2) g).n = g.n := by
  induction l with
  | nil => intro g; rfl
  | cons e rest ih => intro g; rw [List.foldl_cons, ih, add_edge_n_eq]

theorem foldl_add_edge_directed (l : List (Int × Int)) : ∀ g : Graph,
    (l.foldl (fun h e => h.add_edge e.1 e.2) g).directed = g.directed := by
  induction l with
  | nil => intro g; rfl
  | cons e rest ih => intro g; rw [List.foldl_cons, ih, add_edge_directed_eq]

theorem buildGraph_n (n : Nat) (d : Bool) (es : List (Int × Int)) :
    (buildGraph n d es).n = n := by
  unfold buildGraph
  rw [foldl_add_edge_n]
  rfl

theorem buildGraph_directed (n : Nat) (d : Bool) (es : List (Int × Int)) :
    (buildGraph n d es).directed = d := by
  unfold buildGraph
  rw [foldl_add_edge_directed]
  rfl

/-! ### Concrete graphs from the self-test, used as witnesses -/

/-- Test 2 of the self-test: directed chain `0→1→2` on 3 vertices. -/
def gChain3 : Graph := ((Graph.construct 3 true).add_edge 0 1).add_edge 1 2

/-- Test 4 of the self-test: directed, edge `0→1`, vertex 2 isolated. -/
def gIso3 : Graph := (Graph.construct 3 true).add_edge 0 1

/-- A single undirected edge on 2 vertices. -/
def gEdge2 : Graph := (Graph.construct 2 false).add_edge 0 1

/-- Undirected: edges `0-1, 0-2, 1-2, 2-3`; vertex degrees 2, 2, 3, 1. -/
def gStar4 : Graph :=
  ((((Graph.construct 4 false).add_edge 0 1).add_edge 0 2).add_edge 1 2).add_edge 2 3

/-! ### The claims -/

/-- Claim C1: soundness of the search — for every (well-formed) graph, if
`find_hamiltonian_path` returns a path `p`, then `is_hamiltonian_path g p`
returns true. -/
theorem C1_search_soundness (g : Graph) (p : List Int) (hwf : g.WF)
    (h : find_hamiltonian_path g = some p) : is_hamiltonian_path g p = true :=
  find_sound hwf h

theorem C1_search_soundness_witness :
    gChain3.WF ∧ find_hamiltonian_path gChain3 = some [0, 1, 2] ∧
      is_hamiltonian_path gChain3 [0, 1, 2] = true :=
  ⟨by decide, by decide, C1_search_soundness gChain3 [0, 1, 2] (by decide) (by decide)⟩

/-- Claim C2: completeness of the search — `find_hamiltonian_path` reports
`none` exactly when no Hamiltonian path exists (no sequence is accepted by the
validator); whenever some Hamiltonian path exists, a path is returned. -/
theorem C2_search_completeness (g : Graph) (hwf : g.WF) :
    find_hamiltonian_path g = none ↔ ¬∃ p, is_hamiltonian_path g p = true := by
  constructor
  · rintro hnone ⟨p, hp⟩
    exact find_complete hwf hp hnone
  · intro hno
    cases hfind : find_hamiltonian_path g with
    | none => rfl
    | some p => exact absurd ⟨p, find_sound hwf hfind⟩ hno

theorem C2_search_completeness_witness :
    gIso3.WF ∧
      (find_hamiltonian_path gIso3 = none ↔ ¬∃ p, is_hamiltonian_path gIso3 p = true) :=
  ⟨by decide, C2_search_completeness gIso3 (by decide)⟩

/-- Claim C3: validator correctness and totality — `is_hamiltonian_path` is a
total boolean function (immediate in the embedding: it is a Lean function into
`Bool`, defined for every input sequence, malformed ones included), and it
returns true exactly when the length equals `vertex_count`, the set of
identifiers in the path is exactly `{0, …, vertex_count-1}`, and every
consecutive pair is an edge (adjacency-set membership of the second endpoint
in the set of the first, hence direction-sensitive for directed graphs). -/
theorem C3_validator_correct (g : Graph) (path : List Int) :
    is_hamiltonian_path g path = true ↔ HamSpec g path :=
  ham_iff g path

/-- Claim C4: backtrack atomicity — whenever the recursive extension returns
the failure outcome, the `path` and `visited` state it hands back are exactly
the ones it was entered with: every tentative mark/append was undone (the
undo in the embedding mirrors the `path.pop()` of the source and
`visited[neighbor] = False` in LIFO order). -/
theorem C4_backtrack_atomic (fuel : Nat) (current : Int) (s out : SState)
    (h : backtrackAux fuel current s = some (none, out)) :
    out.path = s.path ∧ out.visited = s.visited := by
  have h2 := backtrackAux_none_eq fuel current s out h
  rw [h2]
  exact ⟨rfl, rfl⟩

theorem C4_backtrack_atomic_witness :
    (⟨gIso3, [0], [true, false, false]⟩ : SState).path = [0] ∧
      (⟨gIso3, [0], [true, false, false]⟩ : SState).visited = [true, false, false] :=
  C4_backtrack_atomic 3 0 ⟨gIso3, [0], [true, false, false]⟩
    ⟨gIso3, [0], [true, false, false]⟩ (by decide)

/-- Claim C5: neighbor ordering — for an in-range vertex `u` the neighbor
query returns a permutation of the adjacency set of `u` (exactly its members),
sorted ascending by the own adjacency-set size of each neighbor; the tie-break is
deterministic because `neighbors` is a function of the graph alone (the
embedding fixes it to ascending identifier, the stable order over the
canonical ascending set iteration).  For `u` out of `[0, vertex_count)` the
empty sequence is returned. -/
theorem C5_neighbor_order (g : Graph) (u : Int) :
    (0 ≤ u → u < (g.n : Int) →
      ((g.neighbors u).Perm (g.adjAt u) ∧
        (g.neighbors u).Sorted (fun a b => g.degree a ≤ g.degree b))) ∧
    (¬(0 ≤ u ∧ u < (g.n : Int)) → g.neighbors u = []) := by
  constructor
  · intro h0 h1
    unfold Graph.neighbors
    rw [if_pos ⟨h0, h1⟩]
    constructor
    · exact List.perm_insertionSort _ _
    · haveI : IsTotal Int (fun a b => g.degree a ≤ g.degree b) :=
        ⟨fun a b => Nat.le_total _ _⟩
      haveI : IsTrans Int (fun a b => g.degree a ≤ g.degree b) :=
        ⟨fun a b c => Nat.le_trans⟩
      exact List.sorted_insertionSort _ _
  · intro h
    unfold Graph.neighbors
    rw [if_neg h]

theorem C5_neighbor_order_witness :
    ((gStar4.neighbors 2).Perm (gStar4.adjAt 2) ∧
      (gStar4.neighbors 2).Sorted (fun a b => gStar4.degree a ≤ gStar4.degree b)) ∧
    gStar4.neighbors (-1) = [] :=
  ⟨(C5_neighbor_order gStar4 2).1 (by decide) (by decide),
    (C5_neighbor_order gStar4 (-1)).2 (by decide)⟩

/-- Claim C6: termination and depth bound — on the states the program builds
(well-formed graph, one marker per vertex, at least one vertex already
visited) the recursive extension always returns within recursion depth
`vertex_count`: with the call-depth budget (`fuel`) set to `g.n`, the
out-of-budget marker is never produced.  Each recursive call consumes one
unvisited vertex, so the number of unvisited vertices bounds the depth. -/
theorem C6_termination_depth_bound (g : Graph) (current : Int) (path : List Int)
    (visited : List Bool) (hwf : g.WF) (hlen : visited.length = g.n)
    (hcount : visited.count false < g.n) :
    (backtrackAux g.n current ⟨g, path, visited⟩).isSome = true :=
  backtrackAux_total g.n current ⟨g, path, visited⟩ hwf hlen hcount

theorem C6_termination_depth_bound_witness :
    (backtrackAux gChain3.n 0 ⟨gChain3, [0], [true, false, false]⟩).isSome = true :=
  C6_termination_depth_bound gChain3 0 [0] [true, false, false]
    (by decide) (by decide) (by decide)

/-- Claim C7: adjacency invariant — after any sequence of `add_edge` calls on
`construct(n, directed)`, every stored identifier is in `[0, n)`, no adjacency
set contains its own vertex, and for an undirected graph membership is
symmetric. -/
theorem C7_adjacency_invariant (n : Nat) (d : Bool) (es : List (Int × Int)) :
    (∀ s ∈ (buildGraph n d es).adj, ∀ x ∈ s, 0 ≤ x ∧ x < (n : Int)) ∧
    (∀ u : Int, u ∉ (buildGraph n d es).adjAt u) ∧
    (d = false → ∀ u v : Int, 0 ≤ u → 0 ≤ v →
      (v ∈ (buildGraph n d es).adjAt u ↔ u ∈ (buildGraph n d es).adjAt v)) := by
  have inv := buildGraph_invariant n d es
  have hn := buildGraph_n n d es
  have hd := buildGraph_directed n d es
  refine ⟨?_, ?_, ?_⟩
  · intro s hs x hx
    have h := inv.inRange s hs x hx
    rw [hn] at h
    exact h
  · intro u
    by_cases hu : 0 ≤ u
    · exact inv.noSelf u hu
    · intro hmem
      have h := inv.wf.mem_adjAt_range hmem
      omega
  · intro hdf u v hu hv
    rw [← hd] at hdf
    exact ⟨fun h => inv.sym hdf u v hu hv h, fun h => inv.sym hdf v u hv hu h⟩

theorem C7_adjacency_invariant_witness :
    ((1 : Int) ∈ (buildGraph 3 false [(0, 1)]).adjAt 0 ↔
      (0 : Int) ∈ (buildGraph 3 false [(0, 1)]).adjAt 1) ∧
    (0 : Int) ∉ (buildGraph 3 false [(0, 1)]).adjAt 0 :=
  ⟨(C7_adjacency_invariant 3 false [(0, 1)]).2.2 rfl 0 1 (by decide) (by decide),
    (C7_adjacency_invariant 3 false [(0, 1)]).2.1 0⟩

/-- Claim C8: silent edge rejection and idempotence — `add_edge(u, v)` with
`u = v` or an endpoint outside `[0, vertex_count)` raises nothing (it is a
total function in the embedding) and leaves the graph, in particular every
adjacency set, unchanged; and calling `add_edge` twice with the same arguments
yields the same adjacency state as calling it once.  The hypothesis
`g.adj.length = g.n` records that `g` carries one adjacency set per vertex,
which holds for every graph the program can construct. -/
theorem C8_add_edge_noop_idem (g : Graph) (u v : Int) (hlen : g.adj.length = g.n) :
    ((u = v ∨ ¬(0 ≤ u ∧ u < (g.n : Int)) ∨ ¬(0 ≤ v ∧ v < (g.n : Int))) →
      g.add_edge u v = g) ∧
    (g.add_edge u v).add_edge u v = g.add_edge u v := by
  constructor
  · intro h
    apply add_edge_noop
    tauto
  · exact add_edge_idem hlen u v

theorem C8_add_edge_noop_idem_witness :
    ((Graph.construct 2 false).add_edge 0 0 = Graph.construct 2 false) ∧
      ((Graph.construct 2 false).add_edge 0 5 = Graph.construct 2 false) ∧
      (((Graph.construct 2 false).add_edge 0 1).add_edge 0 1 =
        (Graph.construct 2 false).add_edge 0 1) :=
  ⟨(C8_add_edge_noop_idem (Graph.construct 2 false) 0 0 (by decide)).1 (Or.inl rfl),
    (C8_add_edge_noop_idem (Graph.construct 2 false) 0 5 (by decide)).1
      (Or.inr (Or.inr (by decide))),
    (C8_add_edge_noop_idem (Graph.construct 2 false) 0 1 (by decide)).2⟩

/-- Claim C9: read-only search — the graph is threaded through the search
state of the embedding, so mutation would be observable; the search returns
it untouched.  Every `_backtrack` call returns the graph component of its
state unchanged, and the per-start search of `find_hamiltonian_path` ends
with exactly the input graph (vertex count, directedness and adjacency sets
included, since this is equality of the whole `Graph` value). -/
theorem C9_search_never_mutates (g : Graph) (start : Nat) (fuel : Nat)
    (current : Int) (s : SState) :
    (startSearch g start).2.graph = g ∧
    (∀ r, backtrackAux fuel current s = some r → r.2.graph = s.graph) := by
  constructor
  · simp only [startSearch]
    cases hbk : backtrackAux g.n (start : Int)
        ⟨g, [(start : Int)], (List.replicate g.n false).set start true⟩ with
    | none => rfl
    | some r => exact backtrackAux_graph_eq g.n _ _ r hbk
  · exact fun r h => backtrackAux_graph_eq fuel current s r h

theorem C9_search_never_mutates_witness :
    (startSearch gChain3 0).2.graph = gChain3 ∧
      (⟨gChain3, [0, 1, 2], [true, true, true]⟩ : SState).graph = gChain3 :=
  ⟨(C9_search_never_mutates gChain3 0 0 0 ⟨gChain3, [], []⟩).1,
    (C9_search_never_mutates gChain3 0 3 2 ⟨gChain3, [0, 1, 2], [true, true, true]⟩).2
      (some [0, 1, 2], ⟨gChain3, [0, 1, 2], [true, true, true]⟩) (by decide)⟩

/-- Claim C10: minimal-start result — when `find_hamiltonian_path` returns a
path on a graph with at least two vertices, its first vertex is the least
start vertex from which some Hamiltonian path exists: start vertices are
tried in ascending order, each per-start search is exhaustive, and the first
success is returned. -/
theorem C10_minimal_start (g : Graph) (p : List Int) (hwf : g.WF) (hn : 2 ≤ g.n)
    (hfind : find_hamiltonian_path g = some p) :
    ∃ s : Nat, s < g.n ∧ p.head? = some (s : Int) ∧
      (∃ q, is_hamiltonian_path g q = true ∧ q.head? = some (s : Int)) ∧
      (∀ t : Nat, t < s →
        ¬∃ q, is_hamiltonian_path g q = true ∧ q.head? = some (t : Int)) := by
  have h0 : ¬g.n = 0 := by omega
  have h1 : ¬g.n = 1 := by omega
  unfold find_hamiltonian_path at hfind
  rw [if_neg h0, if_neg h1] at hfind
  obtain ⟨l1, st, l2, heq, hall, hst⟩ := tryFrom_some_split _ p hfind
  have hstlt : st < g.n := by
    have hmem : st ∈ List.range g.n := by rw [heq]; simp
    rwa [List.mem_range] at hmem
  obtain ⟨t0, ht0⟩ := startSearch_head hst
  refine ⟨st, hstlt, by rw [ht0]; rfl, ?_, ?_⟩
  · exact ⟨p, startSearch_sound hwf hstlt hst, by rw [ht0]; rfl⟩
  · intro t ht hcon
    obtain ⟨q, hq, hqhead⟩ := hcon
    have hlen1 : l1.length < g.n := by
      have h2 : (List.range g.n).length = (l1 ++ st :: l2).length := by rw [heq]
      rw [List.length_range, List.length_append, List.length_cons] at h2
      omega
    have hget : (List.range g.n)[l1.length]? = some st := by
      rw [heq, List.getElem?_append_right (le_refl _)]
      simp
    have hst_eq : l1.length = st := by
      rw [List.getElem?_range hlen1] at hget
      exact Option.some.inj hget
    have htake : List.take l1.length (List.range g.n) = l1 := by
      rw [heq]
      exact List.take_left l1 (st :: l2)
    have hl1 : l1 = List.range st := by
      rw [← htake, List.take_range, Nat.min_eq_left (le_of_lt hlen1), hst_eq]
    have ht1 : t ∈ l1 := by
      rw [hl1, List.mem_range]
      exact ht
    have hnone := hall t ht1
    obtain ⟨pp, hpp⟩ := startSearch_complete hwf (by omega : t < g.n) hq hqhead
    rw [hnone] at hpp
    exact Option.noConfusion hpp

theorem C10_minimal_start_witness :
    gEdge2.WF ∧ 2 ≤ gEdge2.n ∧ find_hamiltonian_path gEdge2 = some [0, 1] ∧
      (∃ s : Nat, s < gEdge2.n ∧ ([0, 1] : List Int).head? = some (s : Int) ∧
        (∃ q, is_hamiltonian_path gEdge2 q = true ∧ q.head? = some (s : Int)) ∧
        (∀ t : Nat, t < s →
          ¬∃ q, is_hamiltonian_path gEdge2 q = true ∧ q.head? = some (t : Int))) :=
  ⟨by decide, by decide, by decide,
    C10_minimal_start gEdge2 [0, 1] (by decide) (by decide) (by decide)⟩

end HamPath
